import Mathlib

/-!
Verification of the NFA core in `src/nfa.rs`.

The Rust data model is embedded shallowly:

* `Node` is a newtype over `usize`; state identifiers are modelled as `ℕ`.
* `HashSet<Node>` becomes `Finset ℕ`.
* `HashMap<(Node, char), HashSet<Node>>` becomes a total function
  `ℕ → Char → Finset ℕ`, with the absent key represented by the empty set.
  This is behaviourally faithful: `is_match` treats an absent key exactly as
  an empty destination set, and an entry whose destination set is empty is
  never augmented by `times`/`star` (its intersection with any accepting set
  is empty), so the map-with-missing-keys and the total-function views agree
  on every observable behaviour.  `HashMap::insert` overwrites, so the second
  automaton's renumbered entries take priority at a colliding key.
* `CharStream` is a finite forward-only sequence, modelled as `List Char`.
-/

namespace Reg

/-- The automaton record of `nfa.rs`: a state count, a set of starting
states, a transition map and a set of accepting (`finished`) states. -/
structure NFA where
  states : ℕ
  starting : Finset ℕ
  delta : ℕ → Char → Finset ℕ
  finished : Finset ℕ

/-- One step of the subset simulation inside `NFA::is_match`: the union over
every active node of the destination set for the current symbol (absent key =
empty set). -/
def stepSet (A : NFA) (S : Finset ℕ) (ch : Char) : Finset ℕ :=
  S.biUnion fun q => A.delta q ch

/-- The active set after feeding a whole symbol sequence, starting from `S`:
the `for ch in stream` loop of `NFA::is_match`. -/
def runFrom (A : NFA) (S : Finset ℕ) (s : List Char) : Finset ℕ :=
  s.foldl (stepSet A) S

/-- The active set together with the number of symbols drawn from the
stream, mirroring that the loop of `NFA::is_match` draws one symbol per
iteration and never breaks early. -/
def runCount (A : NFA) (S : Finset ℕ) (s : List Char) : Finset ℕ × ℕ :=
  s.foldl (fun p ch => (stepSet A p.1 ch, p.2 + 1)) (S, 0)

/-- `NFA::is_match`: run the subset simulation from the starting set over the
whole stream, then test whether some remaining active node is accepting. -/
def is_match (A : NFA) (s : List Char) : Bool :=
  decide (∃ q ∈ runFrom A A.starting s, q ∈ A.finished)

/-- The `plus` combinator (union).  The second automaton's states are
renumbered by adding `first.states`; starting and finished sets are unioned;
the transition map is `first.delta` with the renumbered entries of
`second.delta` inserted (insertion overwrites a colliding key). -/
def plus (first second : NFA) : NFA where
  states := first.states + second.states
  starting := first.starting ∪ second.starting.image (· + first.states)
  delta := fun n ch =>
    if first.states ≤ n ∧ (second.delta (n - first.states) ch).Nonempty then
      (second.delta (n - first.states) ch).image (· + first.states)
    else first.delta n ch
  finished := first.finished ∪ second.finished.image (· + first.states)

/-- The `times` combinator (concatenation).  The second automaton is
renumbered by `first.states`.  The result starts at `first.starting`, plus
the renumbered `second.starting` when some starting state of `first` is
already accepting.  Every entry of `first.delta` whose destination set meets
`first.finished` additionally points at the renumbered `second.starting`;
the renumbered entries of `second.delta` are inserted afterwards.

The augmentation loop in the source (nfa.rs lines 82-97) contains the
statement `new_set = tmp;` where `tmp` is an undefined variable, so that
line cannot have any defined meaning; following the documented contract
(spec §4.2 and §9, which the rest of the loop implements), every applicable
entry is augmented with the renumbered starting states of `second`,
independently of the others.  The `added_second_starting` flag only guards
re-insertion of the same whole set within one entry, which is idempotent,
so it does not affect the resulting map. -/
def times (first second : NFA) : NFA where
  states := first.states + second.states
  starting :=
    first.starting ∪
      (if (first.starting ∩ first.finished).Nonempty then
        second.starting.image (· + first.states)
      else ∅)
  delta := fun n ch =>
    if first.states ≤ n ∧ (second.delta (n - first.states) ch).Nonempty then
      (second.delta (n - first.states) ch).image (· + first.states)
    else
      first.delta n ch ∪
        (if (first.delta n ch ∩ first.finished).Nonempty then
          second.starting.image (· + first.states)
        else ∅)
  finished := second.finished.image (· + first.states)

/-- The `unit` combinator: two states, state `0` starting, state `1`
accepting, and a single transition consuming `ch` from `0` to `1`. -/
def unit (ch : Char) : NFA where
  states := 2
  starting := {0}
  delta := fun n c => if n = 0 ∧ c = ch then {1} else ∅
  finished := {1}

/-- The `star` combinator (Kleene closure).  States and starting set are
reused unchanged; every entry whose destination set meets `nfa.finished`
additionally points back at `nfa.starting`; all starting states become
accepting.  (In the source the `added_starting` flag is declared immutable
and then assigned; under either reading of the flag the loop inserts the
whole starting set at most once per entry, which is idempotent, so the
resulting map is the same.) -/
def star (nfa : NFA) : NFA where
  states := nfa.states
  starting := nfa.starting
  delta := fun n ch =>
    nfa.delta n ch ∪
      (if (nfa.delta n ch ∩ nfa.finished).Nonempty then nfa.starting else ∅)
  finished := nfa.finished ∪ nfa.starting

/-- The `empty` combinator: one state, both starting and accepting, no
transitions. -/
def empty : NFA where
  states := 1
  starting := {0}
  delta := fun _ _ => ∅
  finished := {0}

/-- The bounds invariant of spec §3/§8: every id in `starting`, `finished`,
every state component of a present transition key (a key whose destination
set is nonempty, in the total-function view of the map) and every destination
id lies strictly below `states`. -/
structure WF (A : NFA) : Prop where
  starting_lt : ∀ q ∈ A.starting, q < A.states
  finished_lt : ∀ q ∈ A.finished, q < A.states
  key_lt : ∀ q ch, (A.delta q ch).Nonempty → q < A.states
  target_lt : ∀ q ch r, r ∈ A.delta q ch → r < A.states

/-- The automata produced by the five combinators. -/
inductive Built : NFA → Prop where
  | empty : Built Reg.empty
  | unit (c : Char) : Built (Reg.unit c)
  | plus {A B : NFA} : Built A → Built B → Built (Reg.plus A B)
  | times {A B : NFA} : Built A → Built B → Built (Reg.times A B)
  | star {A : NFA} : Built A → Built (Reg.star A)

/-- Membership in the language `L*`: the sequence splits into zero or more
consecutive pieces, each satisfying `L`. -/
inductive StarLang (L : List Char → Prop) : List Char → Prop where
  | nil : StarLang L []
  | append (u v : List Char) : L u → StarLang L v → StarLang L (u ++ v)

/-- The transition map of concatenation as spec §4.2 words it: the union of
`first`'s entries — each augmented with the renumbered `second.starting`
whenever its destination set meets `first.finished` — and the renumbered
entries of `second`. -/
def concatDeltaSpec (first second : NFA) (n : ℕ) (ch : Char) : Finset ℕ :=
  (first.delta n ch ∪
      (if (first.delta n ch ∩ first.finished).Nonempty then
        second.starting.image (· + first.states)
      else ∅)) ∪
    (if first.states ≤ n then
      (second.delta (n - first.states) ch).image (· + first.states)
    else ∅)

/-! Basic lemmas about the subset simulation. -/

theorem mem_stepSet {A : NFA} {S : Finset ℕ} {ch : Char} {q : ℕ} :
    q ∈ stepSet A S ch ↔ ∃ p ∈ S, q ∈ A.delta p ch := by
  simp [stepSet]

theorem runFrom_nil (A : NFA) (S : Finset ℕ) : runFrom A S [] = S := rfl

theorem runFrom_cons (A : NFA) (S : Finset ℕ) (c : Char) (s : List Char) :
    runFrom A S (c :: s) = runFrom A (stepSet A S c) s := rfl

theorem runFrom_append (A : NFA) (S : Finset ℕ) (s t : List Char) :
    runFrom A S (s ++ t) = runFrom A (runFrom A S s) t := by
  simp [runFrom, List.foldl_append]

theorem runFrom_concat (A : NFA) (S : Finset ℕ) (s : List Char) (c : Char) :
    runFrom A S (s ++ [c]) = stepSet A (runFrom A S s) c := by
  simp [runFrom_append, runFrom_cons, runFrom_nil]

theorem stepSet_empty (A : NFA) (ch : Char) : stepSet A ∅ ch = ∅ := by
  simp [stepSet]

theorem runFrom_empty (A : NFA) (s : List Char) : runFrom A ∅ s = ∅ := by
  induction s with
  | nil => rfl
  | cons c s ih => rw [runFrom_cons, stepSet_empty]; exact ih

theorem stepSet_mono {A B : NFA} {S T : Finset ℕ} {ch : Char}
    (hd : ∀ q ch', A.delta q ch' ⊆ B.delta q ch') (hST : S ⊆ T) :
    stepSet A S ch ⊆ stepSet B T ch := by
  intro q hq
  rcases mem_stepSet.mp hq with ⟨p, hp, hq⟩
  exact mem_stepSet.mpr ⟨p, hST hp, hd p ch hq⟩

theorem runFrom_mono {A B : NFA} {S T : Finset ℕ}
    (hd : ∀ q ch', A.delta q ch' ⊆ B.delta q ch') (hST : S ⊆ T) :
    ∀ s, runFrom A S s ⊆ runFrom B T s := by
  intro s
  induction s generalizing S T with
  | nil => exact hST
  | cons c s ih =>
    rw [runFrom_cons, runFrom_cons]
    exact ih (stepSet_mono hd hST)

theorem is_match_iff {A : NFA} {s : List Char} :
    is_match A s = true ↔ ∃ q ∈ runFrom A A.starting s, q ∈ A.finished := by
  simp [is_match]

theorem is_match_nil {A : NFA} :
    is_match A [] = true ↔ ∃ q ∈ A.starting, q ∈ A.finished := by
  rw [is_match_iff, runFrom_nil]

/-! Consequences of the bounds invariant. -/

theorem WF.delta_eq_empty {A : NFA} (h : WF A) {q : ℕ} (hq : A.states ≤ q)
    (ch : Char) : A.delta q ch = ∅ := by
  by_contra hne
  exact absurd (h.key_lt q ch (Finset.nonempty_iff_ne_empty.mpr hne))
    (Nat.not_lt.mpr hq)

theorem WF.stepSet_lt {A : NFA} (h : WF A) {S : Finset ℕ} {ch : Char} :
    ∀ q ∈ stepSet A S ch, q < A.states := by
  intro q hq
  rcases mem_stepSet.mp hq with ⟨p, _, hq⟩
  exact h.target_lt p ch q hq

theorem WF.runFrom_lt {A : NFA} (h : WF A) {S : Finset ℕ}
    (hS : ∀ q ∈ S, q < A.states) :
    ∀ s, ∀ q ∈ runFrom A S s, q < A.states := by
  intro s
  induction s generalizing S with
  | nil => exact hS
  | cons c s ih =>
    rw [runFrom_cons]
    exact ih h.stepSet_lt

theorem wf_empty : WF empty := by
  constructor
  · intro q hq
    simp only [empty, Finset.mem_singleton] at hq
    subst hq
    decide
  · intro q hq
    simp only [empty, Finset.mem_singleton] at hq
    subst hq
    decide
  · intro q ch hq
    exact absurd hq (by simp [empty])
  · intro q ch r hr
    exact absurd hr (by simp [empty])

theorem wf_unit (c : Char) : WF (unit c) := by
  constructor
  · intro q hq
    simp only [unit, Finset.mem_singleton] at hq
    subst hq
    exact Nat.zero_lt_two
  · intro q hq
    simp only [unit, Finset.mem_singleton] at hq
    subst hq
    exact Nat.one_lt_two
  · intro q ch hq
    simp only [unit] at hq
    split_ifs at hq with h
    · obtain ⟨rfl, -⟩ := h
      exact Nat.zero_lt_two
    · exact absurd hq (by simp)
  · intro q ch r hr
    simp only [unit] at hr
    split_ifs at hr with h
    · simp only [Finset.mem_singleton] at hr
      subst hr
      exact Nat.one_lt_two
    · exact absurd hr (by simp)

/-! Decomposition of `plus`, leading to the union property. -/

theorem plus_delta_low {A B : NFA} {q : ℕ} (hq : q < A.states) (ch : Char) :
    (plus A B).delta q ch = A.delta q ch := by
  simp only [plus]
  rw [if_neg]
  rintro ⟨h1, -⟩
  exact absurd h1 (Nat.not_le.mpr hq)

theorem plus_delta_high {A B : NFA} (h : WF A) (m : ℕ) (ch : Char) :
    (plus A B).delta (m + A.states) ch = (B.delta m ch).image (· + A.states) := by
  simp only [plus, Nat.add_sub_cancel]
  by_cases hne : (B.delta m ch).Nonempty
  · rw [if_pos ⟨Nat.le_add_left _ _, hne⟩]
  · rw [if_neg (by tauto), h.delta_eq_empty (Nat.le_add_left _ _),
      Finset.not_nonempty_iff_eq_empty.mp hne, Finset.image_empty]

theorem plus_stepSet {A B : NFA} (h : WF A) {S T : Finset ℕ}
    (hS : ∀ q ∈ S, q < A.states) (ch : Char) :
    stepSet (plus A B) (S ∪ T.image (· + A.states)) ch
      = stepSet A S ch ∪ (stepSet B T ch).image (· + A.states) := by
  ext q
  constructor
  · intro hq
    rcases mem_stepSet.mp hq with ⟨p, hp, hq⟩
    rcases Finset.mem_union.mp hp with hp | hp
    · rw [plus_delta_low (hS p hp) ch] at hq
      exact Finset.mem_union_left _ (mem_stepSet.mpr ⟨p, hp, hq⟩)
    · rcases Finset.mem_image.mp hp with ⟨t, ht, rfl⟩
      rw [plus_delta_high h t ch] at hq
      rcases Finset.mem_image.mp hq with ⟨r, hr, rfl⟩
      exact Finset.mem_union_right _
        (Finset.mem_image.mpr ⟨r, mem_stepSet.mpr ⟨t, ht, hr⟩, rfl⟩)
  · intro hq
    rcases Finset.mem_union.mp hq with hq | hq
    · rcases mem_stepSet.mp hq with ⟨p, hp, hq⟩
      refine mem_stepSet.mpr ⟨p, Finset.mem_union_left _ hp, ?_⟩
      rw [plus_delta_low (hS p hp) ch]
      exact hq
    · rcases Finset.mem_image.mp hq with ⟨r, hr, rfl⟩
      rcases mem_stepSet.mp hr with ⟨t, ht, hr⟩
      refine mem_stepSet.mpr ⟨t + A.states,
        Finset.mem_union_right _ (Finset.mem_image.mpr ⟨t, ht, rfl⟩), ?_⟩
      rw [plus_delta_high h t ch]
      exact Finset.mem_image.mpr ⟨r, hr, rfl⟩

theorem plus_runFrom {A B : NFA} (h : WF A) {S T : Finset ℕ}
    (hS : ∀ q ∈ S, q < A.states) :
    ∀ s, runFrom (plus A B) (S ∪ T.image (· + A.states)) s
      = runFrom A S s ∪ (runFrom B T s).image (· + A.states) := by
  intro s
  induction s generalizing S T with
  | nil => rfl
  | cons c s ih =>
    rw [runFrom_cons, runFrom_cons, runFrom_cons, plus_stepSet h hS c]
    exact ih h.stepSet_lt

theorem plus_match_iff {A B : NFA} (h : WF A) (s : List Char) :
    is_match (plus A B) s = true ↔ is_match A s = true ∨ is_match B s = true := by
  have hstart : (plus A B).starting = A.starting ∪ B.starting.image (· + A.states) := rfl
  have hfin : (plus A B).finished = A.finished ∪ B.finished.image (· + A.states) := rfl
  rw [is_match_iff, is_match_iff, is_match_iff, hstart,
    plus_runFrom h h.starting_lt s, hfin]
  constructor
  · rintro ⟨q, hq, hqf⟩
    rcases Finset.mem_union.mp hq with hq | hq
    · have hlt : q < A.states := h.runFrom_lt h.starting_lt s q hq
      rcases Finset.mem_union.mp hqf with hqf | hqf
      · exact Or.inl ⟨q, hq, hqf⟩
      · rcases Finset.mem_image.mp hqf with ⟨f, _, rfl⟩
        exact absurd hlt (Nat.not_lt.mpr (Nat.le_add_left _ _))
    · rcases Finset.mem_image.mp hq with ⟨r, hr, rfl⟩
      rcases Finset.mem_union.mp hqf with hqf | hqf
      · exact absurd (h.finished_lt _ hqf) (Nat.not_lt.mpr (Nat.le_add_left _ _))
      · rcases Finset.mem_image.mp hqf with ⟨f, hf, hrf⟩
        have : f = r := Nat.add_right_cancel hrf
        exact Or.inr ⟨r, hr, this ▸ hf⟩
  · rintro (⟨q, hq, hqf⟩ | ⟨r, hr, hrf⟩)
    · exact ⟨q, Finset.mem_union_left _ hq, Finset.mem_union_left _ hqf⟩
    · exact ⟨r + A.states,
        Finset.mem_union_right _ (Finset.mem_image.mpr ⟨r, hr, rfl⟩),
        Finset.mem_union_right _ (Finset.mem_image.mpr ⟨r, hrf, rfl⟩)⟩

/-- C4: for all automata A and B and every finite symbol sequence s, the
union combinator (`plus` in the code) produces an automaton that accepts s
iff A accepts s or B accepts s.  (Automata are assumed to satisfy the bounds
invariant of spec §3; `plus` offsets B's states by A's state count, so only
A's well-formedness is needed.) -/
theorem plus_accepts_iff_or (A B : NFA) (h : WF A) (s : List Char) :
    is_match (plus A B) s = true ↔ is_match A s = true ∨ is_match B s = true :=
  plus_match_iff h s

theorem plus_accepts_iff_or_witness :
    WF (unit 'a') ∧
      (is_match (plus (unit 'a') (unit 'b')) ['b'] = true ↔
        is_match (unit 'a') ['b'] = true ∨ is_match (unit 'b') ['b'] = true) :=
  ⟨wf_unit 'a', plus_accepts_iff_or (unit 'a') (unit 'b') (wf_unit 'a') ['b']⟩

/-! Decomposition of `times`. -/

theorem times_delta_low {A B : NFA} {q : ℕ} (hq : q < A.states) (ch : Char) :
    (times A B).delta q ch
      = A.delta q ch ∪
          (if (A.delta q ch ∩ A.finished).Nonempty then
            B.starting.image (· + A.states)
          else ∅) := by
  simp only [times]
  rw [if_neg]
  rintro ⟨h1, -⟩
  exact absurd h1 (Nat.not_le.mpr hq)

theorem times_delta_high {A B : NFA} (h : WF A) (m : ℕ) (ch : Char) :
    (times A B).delta (m + A.states) ch = (B.delta m ch).image (· + A.states) := by
  simp only [times, Nat.add_sub_cancel]
  by_cases hne : (B.delta m ch).Nonempty
  · rw [if_pos ⟨Nat.le_add_left _ _, hne⟩]
  · rw [if_neg (by tauto), h.delta_eq_empty (Nat.le_add_left _ _),
      Finset.not_nonempty_iff_eq_empty.mp hne, Finset.image_empty]
    simp

/-- C2: under the bounds invariant for A, the transition relation of
`times A B` is exactly the union of A's transitions and renumbered B's
transitions in which every entry of A whose destination set meets A's
accepting states is augmented with all of renumbered B's starting states,
each applicable entry independently of the others (spec §4.2). -/
theorem times_delta_eq_spec (A B : NFA) (h : WF A) (n : ℕ) (ch : Char) :
    (times A B).delta n ch = concatDeltaSpec A B n ch := by
  rcases Nat.lt_or_ge n A.states with hn | hn
  · rw [times_delta_low hn ch]
    simp only [concatDeltaSpec, if_neg (Nat.not_le.mpr hn), Finset.union_empty]
  · obtain ⟨m, rfl⟩ : ∃ m, n = m + A.states :=
      ⟨n - A.states, (Nat.sub_add_cancel hn).symm⟩
    rw [times_delta_high h m ch]
    simp only [concatDeltaSpec, if_pos (Nat.le_add_left _ _),
      h.delta_eq_empty (Nat.le_add_left _ _), Nat.add_sub_cancel]
    simp

theorem times_delta_eq_spec_witness :
    WF (unit 'a') ∧
      (times (unit 'a') (unit 'b')).delta 0 'a'
        = concatDeltaSpec (unit 'a') (unit 'b') 0 'a' :=
  ⟨wf_unit 'a', times_delta_eq_spec (unit 'a') (unit 'b') (wf_unit 'a') 0 'a'⟩

theorem times_delta_superset {A B : NFA} (h : WF A) :
    ∀ q ch, A.delta q ch ⊆ (times A B).delta q ch := by
  intro q ch
  rcases Nat.lt_or_ge q A.states with hq | hq
  · rw [times_delta_low hq ch]
    exact Finset.subset_union_left
  · rw [h.delta_eq_empty hq ch]
    exact Finset.empty_subset _

theorem times_run_low {A B : NFA} (h : WF A) (s : List Char) :
    runFrom A A.starting s ⊆ runFrom (times A B) (times A B).starting s :=
  runFrom_mono (times_delta_superset h) Finset.subset_union_left s

theorem times_stepSet_high {A B : NFA} (h : WF A) (T : Finset ℕ) (ch : Char) :
    stepSet (times A B) (T.image (· + A.states)) ch
      = (stepSet B T ch).image (· + A.states) := by
  ext q
  constructor
  · intro hq
    rcases mem_stepSet.mp hq with ⟨p, hp, hq⟩
    rcases Finset.mem_image.mp hp with ⟨t, ht, rfl⟩
    rw [times_delta_high h t ch] at hq
    rcases Finset.mem_image.mp hq with ⟨r, hr, rfl⟩
    exact Finset.mem_image.mpr ⟨r, mem_stepSet.mpr ⟨t, ht, hr⟩, rfl⟩
  · intro hq
    rcases Finset.mem_image.mp hq with ⟨r, hr, rfl⟩
    rcases mem_stepSet.mp hr with ⟨t, ht, hr⟩
    refine mem_stepSet.mpr ⟨t + A.states, Finset.mem_image.mpr ⟨t, ht, rfl⟩, ?_⟩
    rw [times_delta_high h t ch]
    exact Finset.mem_image.mpr ⟨r, hr, rfl⟩

theorem times_run_high {A B : NFA} (h : WF A) {T R : Finset ℕ}
    (hTR : T.image (· + A.states) ⊆ R) :
    ∀ s, (runFrom B T s).image (· + A.states) ⊆ runFrom (times A B) R s := by
  intro s
  induction s generalizing T R with
  | nil => exact hTR
  | cons c s ih =>
    rw [runFrom_cons, runFrom_cons]
    refine ih ?_
    calc (stepSet B T c).image (· + A.states)
        = stepSet (times A B) (T.image (· + A.states)) c :=
          (times_stepSet_high h T c).symm
      _ ⊆ stepSet (times A B) R c := stepSet_mono (fun _ _ => subset_rfl) hTR

theorem times_enter_high {A B : NFA} (h : WF A) {s1 : List Char}
    (hm : is_match A s1 = true) :
    B.starting.image (· + A.states) ⊆ runFrom (times A B) (times A B).starting s1 := by
  rcases List.eq_nil_or_concat s1 with rfl | ⟨s1', c, rfl⟩
  · rcases is_match_nil.mp hm with ⟨q, hq, hqf⟩
    intro x hx
    rw [runFrom_nil]
    refine Finset.mem_union_right _ ?_
    rw [if_pos ⟨q, Finset.mem_inter.mpr ⟨hq, hqf⟩⟩]
    exact hx
  · rcases is_match_iff.mp hm with ⟨f, hf, hff⟩
    rw [List.concat_eq_append, runFrom_concat] at hf
    rcases mem_stepSet.mp hf with ⟨p, hp, hf⟩
    have hplt : p < A.states := h.runFrom_lt h.starting_lt s1' p hp
    rw [List.concat_eq_append, runFrom_concat]
    intro x hx
    refine mem_stepSet.mpr ⟨p, times_run_low h s1' hp, ?_⟩
    rw [times_delta_low hplt c]
    refine Finset.mem_union_right _ ?_
    rw [if_pos ⟨f, Finset.mem_inter.mpr ⟨hf, hff⟩⟩]
    exact hx

theorem times_run_sub {A B : NFA} (h : WF A) :
    ∀ s, ∀ q ∈ runFrom (times A B) (times A B).starting s,
      q ∈ runFrom A A.starting s ∨
        ∃ m s1 s2, s = s1 ++ s2 ∧ is_match A s1 = true ∧
          m ∈ runFrom B B.starting s2 ∧ q = m + A.states := by
  intro s
  induction s using List.reverseRecOn with
  | nil =>
    intro q hq
    rw [runFrom_nil] at hq
    rcases Finset.mem_union.mp hq with hq | hq
    · exact Or.inl hq
    · by_cases hne : (A.starting ∩ A.finished).Nonempty
      · rw [if_pos hne] at hq
        rcases Finset.mem_image.mp hq with ⟨m, hm, rfl⟩
        rcases hne with ⟨x, hx⟩
        rcases Finset.mem_inter.mp hx with ⟨hx1, hx2⟩
        exact Or.inr ⟨m, [], [], rfl, is_match_nil.mpr ⟨x, hx1, hx2⟩, hm, rfl⟩
      · rw [if_neg hne] at hq
        exact absurd hq (Finset.not_mem_empty _)
  | append_singleton s c ih =>
    intro q hq
    rw [runFrom_concat] at hq
    rcases mem_stepSet.mp hq with ⟨p, hp, hq⟩
    rcases ih p hp with hlow | ⟨m', s1, s2, rfl, hm1, hm2, rfl⟩
    · have hplt : p < A.states := h.runFrom_lt h.starting_lt s p hlow
      rw [times_delta_low hplt c] at hq
      rcases Finset.mem_union.mp hq with hq | hq
      · exact Or.inl (by rw [runFrom_concat]; exact mem_stepSet.mpr ⟨p, hlow, hq⟩)
      · by_cases hne : (A.delta p c ∩ A.finished).Nonempty
        · rw [if_pos hne] at hq
          rcases Finset.mem_image.mp hq with ⟨m, hm, rfl⟩
          rcases hne with ⟨f, hf⟩
          rcases Finset.mem_inter.mp hf with ⟨hf1, hf2⟩
          refine Or.inr ⟨m, s ++ [c], [], (List.append_nil _).symm, ?_, hm, rfl⟩
          exact is_match_iff.mpr ⟨f,
            by rw [runFrom_concat]; exact mem_stepSet.mpr ⟨p, hlow, hf1⟩, hf2⟩
        · rw [if_neg hne] at hq
          exact absurd hq (Finset.not_mem_empty _)
    · rw [times_delta_high h m' c] at hq
      rcases Finset.mem_image.mp hq with ⟨m, hm, rfl⟩
      refine Or.inr ⟨m, s1, s2 ++ [c], List.append_assoc s1 s2 [c], hm1, ?_, rfl⟩
      rw [runFrom_concat]
      exact mem_stepSet.mpr ⟨m', hm2, hm⟩

theorem times_match_iff {A B : NFA} (h : WF A) (s : List Char) :
    is_match (times A B) s = true ↔
      ∃ s1 s2, s = s1 ++ s2 ∧ is_match A s1 = true ∧ is_match B s2 = true := by
  constructor
  · intro hm
    rcases is_match_iff.mp hm with ⟨q, hq, hqf⟩
    rcases Finset.mem_image.mp hqf with ⟨f, hfB, rfl⟩
    rcases times_run_sub h s _ hq with hlow | ⟨m, s1, s2, rfl, hm1, hm2, hmm⟩
    · exact absurd (h.runFrom_lt h.starting_lt s _ hlow)
        (Nat.not_lt.mpr (Nat.le_add_left _ _))
    · have : m = f := Nat.add_right_cancel hmm.symm
      subst this
      exact ⟨s1, s2, rfl, hm1, is_match_iff.mpr ⟨m, hm2, hfB⟩⟩
  · rintro ⟨s1, s2, rfl, h1, h2⟩
    rcases is_match_iff.mp h2 with ⟨r, hr, hrf⟩
    have hsub := @times_run_high A B h B.starting
      (runFrom (times A B) (times A B).starting s1) (@times_enter_high A B h s1 h1) s2
    rw [← runFrom_append] at hsub
    refine is_match_iff.mpr ⟨r + A.states, hsub (Finset.mem_image.mpr ⟨r, hr, rfl⟩), ?_⟩
    exact Finset.mem_image.mpr ⟨r, hrf, rfl⟩

/-- C1: for all automata A and B (A satisfying the bounds invariant of
spec §3) and every finite symbol sequence s, `times A B` accepts s iff there
is a split `s = s1 ++ s2` with A accepting `s1` and B accepting `s2`. -/
theorem times_accepts_iff_split (A B : NFA) (h : WF A) (s : List Char) :
    is_match (times A B) s = true ↔
      ∃ s1 s2, s = s1 ++ s2 ∧ is_match A s1 = true ∧ is_match B s2 = true :=
  times_match_iff h s

theorem times_accepts_iff_split_witness :
    WF (unit 'a') ∧
      (is_match (times (unit 'a') (unit 'b')) ['a', 'b'] = true ↔
        ∃ s1 s2, ['a', 'b'] = s1 ++ s2 ∧
          is_match (unit 'a') s1 = true ∧ is_match (unit 'b') s2 = true) :=
  ⟨wf_unit 'a', times_accepts_iff_split (unit 'a') (unit 'b') (wf_unit 'a') ['a', 'b']⟩

/-! Characterizations of the primitive constructors. -/

theorem stepSet_singleton (A : NFA) (q : ℕ) (ch : Char) :
    stepSet A {q} ch = A.delta q ch :=
  Finset.singleton_biUnion

theorem empty_match_iff (s : List Char) : is_match empty s = true ↔ s = [] := by
  cases s with
  | nil =>
    constructor
    · intro _
      rfl
    · intro _
      decide
  | cons c s' =>
    constructor
    · intro hm
      exfalso
      have hrun : runFrom empty empty.starting (c :: s') = ∅ := by
        rw [runFrom_cons]
        have hstep : stepSet empty empty.starting c = ∅ := by
          simp [stepSet, empty]
        rw [hstep, runFrom_empty]
      rcases is_match_iff.mp hm with ⟨q, hq, -⟩
      rw [hrun] at hq
      exact Finset.not_mem_empty q hq
    · intro hcs
      exact absurd hcs (List.cons_ne_nil c s')

theorem unit_match_iff (c : Char) (s : List Char) :
    is_match (unit c) s = true ↔ s = [c] := by
  have hd0 : ∀ ch, (unit c).delta 0 ch = if ch = c then {1} else ∅ := by
    intro ch
    simp [unit]
  have hd1 : ∀ ch, (unit c).delta 1 ch = ∅ := by
    intro ch
    simp [unit]
  cases s with
  | nil =>
    constructor
    · intro hm
      rcases is_match_nil.mp hm with ⟨q, hq, hqf⟩
      have h1 : q = 0 := by simpa [unit] using hq
      have h2 : q = 1 := by simpa [unit] using hqf
      omega
    · intro hnil
      exact absurd hnil (by simp)
  | cons ch s' =>
    have hstart : (unit c).starting = {0} := rfl
    by_cases hc : ch = c
    · subst hc
      cases s' with
      | nil =>
        simp only [List.cons.injEq, and_true]
        constructor
        · intro _
          trivial
        · intro _
          refine is_match_iff.mpr ⟨1, ?_, by simp [unit]⟩
          rw [runFrom_cons, hstart, stepSet_singleton, hd0, if_pos rfl, runFrom_nil]
          simp
      | cons ch2 s'' =>
        constructor
        · intro hm
          exfalso
          rcases is_match_iff.mp hm with ⟨q, hq, -⟩
          rw [runFrom_cons, hstart, stepSet_singleton, hd0, if_pos rfl,
            runFrom_cons, stepSet_singleton, hd1, runFrom_empty] at hq
          exact Finset.not_mem_empty q hq
        · intro hcs
          exact absurd hcs (by simp)
    · constructor
      · intro hm
        exfalso
        rcases is_match_iff.mp hm with ⟨q, hq, -⟩
        rw [runFrom_cons, hstart, stepSet_singleton, hd0, if_neg hc,
          runFrom_empty] at hq
        exact Finset.not_mem_empty q hq
      · intro hcs
        rw [List.cons.injEq] at hcs
        exact absurd hcs.1 hc

/-- C8: the automaton `empty` accepts the empty sequence and rejects every
nonempty sequence. -/
theorem empty_accepts_iff (s : List Char) : is_match empty s = true ↔ s = [] :=
  empty_match_iff s

/-- C7: for every symbol c, the automaton `unit c` accepts exactly the
one-symbol sequence `[c]`, rejecting the empty sequence and every sequence
whose length is not 1 or whose single element differs from c. -/
theorem unit_accepts_iff (c : Char) (s : List Char) :
    is_match (unit c) s = true ↔ s = [c] :=
  unit_match_iff c s

theorem bool_eq_of_iff {a b : Bool} (h : a = true ↔ b = true) : a = b := by
  cases a <;> cases b <;> simp_all

/-- C6: concatenation with `empty` is an identity on both sides: for every
automaton A (satisfying the bounds invariant of spec §3) and every sequence
s, `times empty A` accepts s iff A accepts s, and `times A empty` accepts s
iff A accepts s. -/
theorem times_empty_identity (A : NFA) (h : WF A) (s : List Char) :
    is_match (times empty A) s = is_match A s ∧
      is_match (times A empty) s = is_match A s := by
  constructor
  · refine bool_eq_of_iff ?_
    rw [times_match_iff wf_empty s]
    constructor
    · rintro ⟨s1, s2, rfl, h1, h2⟩
      rw [empty_match_iff] at h1
      subst h1
      simpa using h2
    · intro hm
      exact ⟨[], s, rfl, (empty_match_iff []).mpr rfl, hm⟩
  · refine bool_eq_of_iff ?_
    rw [times_match_iff h s]
    constructor
    · rintro ⟨s1, s2, rfl, h1, h2⟩
      rw [empty_match_iff] at h2
      subst h2
      simpa using h1
    · intro hm
      exact ⟨s, [], (List.append_nil s).symm, hm, (empty_match_iff []).mpr rfl⟩

theorem times_empty_identity_witness :
    WF (unit 'a') ∧
      (is_match (times empty (unit 'a')) ['a'] = is_match (unit 'a') ['a'] ∧
        is_match (times (unit 'a') empty) ['a'] = is_match (unit 'a') ['a']) :=
  ⟨wf_unit 'a', times_empty_identity (unit 'a') (wf_unit 'a') ['a']⟩

/-- C9: the state count of `plus A B` and of `times A B` is the sum of the
state counts of A and B, and `star A` keeps A's state count and starting
set unchanged. -/
theorem combinator_counts (A B : NFA) :
    (plus A B).states = A.states + B.states ∧
      (times A B).states = A.states + B.states ∧
      (star A).states = A.states ∧ (star A).starting = A.starting :=
  ⟨rfl, rfl, rfl, rfl⟩

/-! The matcher consumes the entire stream. -/

theorem runCount_snd (A : NFA) (S : Finset ℕ) (s : List Char) :
    (runCount A S s).2 = s.length := by
  have key : ∀ (t : List Char) (p : Finset ℕ × ℕ),
      (t.foldl (fun p ch => (stepSet A p.1 ch, p.2 + 1)) p).2 = p.2 + t.length := by
    intro t
    induction t with
    | nil => intro p; simp
    | cons c t ih =>
      intro p
      rw [List.foldl_cons, ih]
      simp only [List.length_cons]
      omega
  rw [runCount, key s (S, 0)]
  simp

theorem runCount_fst (A : NFA) (S : Finset ℕ) (s : List Char) :
    (runCount A S s).1 = runFrom A S s := by
  have key : ∀ (t : List Char) (T : Finset ℕ) (k : ℕ),
      (t.foldl (fun p ch => (stepSet A p.1 ch, p.2 + 1)) (T, k)).1
        = t.foldl (stepSet A) T := by
    intro t
    induction t with
    | nil => intro T k; rfl
    | cons c t ih => intro T k; rw [List.foldl_cons, List.foldl_cons, ih]
  exact key s S 0

/-- C10: the matcher draws every symbol of the stream — the loop iterates
once per symbol even after the active set has become empty — and once the
active set is empty it stays empty, so the call returns false. -/
theorem is_match_consumes_all (A : NFA) (s1 s2 : List Char)
    (h : runFrom A A.starting s1 = ∅) :
    (runCount A A.starting (s1 ++ s2)).2 = (s1 ++ s2).length ∧
      runFrom A A.starting (s1 ++ s2) = ∅ ∧
      is_match A (s1 ++ s2) = false := by
  refine ⟨runCount_snd A _ _, ?_, ?_⟩
  · rw [runFrom_append, h, runFrom_empty]
  · simp [is_match, runFrom_append, h, runFrom_empty]

theorem is_match_consumes_all_witness :
    runFrom (unit 'a') (unit 'a').starting ['b'] = ∅ ∧
      ((runCount (unit 'a') (unit 'a').starting (['b'] ++ ['a'])).2
          = (['b'] ++ ['a']).length ∧
        runFrom (unit 'a') (unit 'a').starting (['b'] ++ ['a']) = ∅ ∧
        is_match (unit 'a') (['b'] ++ ['a']) = false) :=
  ⟨by decide, is_match_consumes_all (unit 'a') ['b'] ['a'] (by decide)⟩

/-! Preservation of the bounds invariant. -/

theorem wf_plus {A B : NFA} (hA : WF A) (hB : WF B) : WF (plus A B) := by
  constructor
  · intro q hq
    rcases Finset.mem_union.mp hq with hq | hq
    · have := hA.starting_lt q hq
      show q < A.states + B.states
      omega
    · rcases Finset.mem_image.mp hq with ⟨m, hm, rfl⟩
      have := hB.starting_lt m hm
      show m + A.states < A.states + B.states
      omega
  · intro q hq
    rcases Finset.mem_union.mp hq with hq | hq
    · have := hA.finished_lt q hq
      show q < A.states + B.states
      omega
    · rcases Finset.mem_image.mp hq with ⟨m, hm, rfl⟩
      have := hB.finished_lt m hm
      show m + A.states < A.states + B.states
      omega
  · intro q ch hq
    show q < A.states + B.states
    simp only [plus] at hq
    split_ifs at hq with hcond
    · have := hB.key_lt (q - A.states) ch hcond.2
      omega
    · have := hA.key_lt q ch hq
      omega
  · intro q ch r hr
    show r < A.states + B.states
    simp only [plus] at hr
    split_ifs at hr with hcond
    · rcases Finset.mem_image.mp hr with ⟨t, ht, rfl⟩
      have := hB.target_lt (q - A.states) ch t ht
      omega
    · have := hA.target_lt q ch r hr
      omega

theorem wf_times {A B : NFA} (hA : WF A) (hB : WF B) : WF (times A B) := by
  constructor
  · intro q hq
    rcases Finset.mem_union.mp hq with hq | hq
    · have := hA.starting_lt q hq
      show q < A.states + B.states
      omega
    · show q < A.states + B.states
      split_ifs at hq with hcond
      · rcases Finset.mem_image.mp hq with ⟨m, hm, rfl⟩
        have := hB.starting_lt m hm
        omega
      · exact absurd hq (Finset.not_mem_empty q)
  · intro q hq
    rcases Finset.mem_image.mp hq with ⟨m, hm, rfl⟩
    have := hB.finished_lt m hm
    show m + A.states < A.states + B.states
    omega
  · intro q ch hq
    show q < A.states + B.states
    simp only [times] at hq
    split_ifs at hq with hcond hint
    · have := hB.key_lt (q - A.states) ch hcond.2
      omega
    · rcases hint with ⟨y, hy⟩
      have := hA.key_lt q ch ⟨y, (Finset.mem_inter.mp hy).1⟩
      omega
    · rw [Finset.union_empty] at hq
      have := hA.key_lt q ch hq
      omega
  · intro q ch r hr
    show r < A.states + B.states
    simp only [times] at hr
    split_ifs at hr with hcond hint
    · rcases Finset.mem_image.mp hr with ⟨t, ht, rfl⟩
      have := hB.target_lt (q - A.states) ch t ht
      omega
    · rcases Finset.mem_union.mp hr with hr | hr
      · have := hA.target_lt q ch r hr
        omega
      · rcases Finset.mem_image.mp hr with ⟨t, ht, rfl⟩
        have := hB.starting_lt t ht
        omega
    · rw [Finset.union_empty] at hr
      have := hA.target_lt q ch r hr
      omega

theorem wf_star {A : NFA} (hA : WF A) : WF (star A) := by
  constructor
  · intro q hq
    exact hA.starting_lt q hq
  · intro q hq
    rcases Finset.mem_union.mp hq with hq | hq
    · exact hA.finished_lt q hq
    · exact hA.starting_lt q hq
  · intro q ch hq
    have hq' : (A.delta q ch ∪
        if (A.delta q ch ∩ A.finished).Nonempty then A.starting else ∅).Nonempty := hq
    rcases hq' with ⟨x, hx⟩
    rcases Finset.mem_union.mp hx with hx | hx
    · exact hA.key_lt q ch ⟨x, hx⟩
    · split_ifs at hx with hint
      · rcases hint with ⟨y, hy⟩
        exact hA.key_lt q ch ⟨y, (Finset.mem_inter.mp hy).1⟩
      · exact absurd hx (Finset.not_mem_empty x)
  · intro q ch r hr
    have hr' : r ∈ A.delta q ch ∪
        (if (A.delta q ch ∩ A.finished).Nonempty then A.starting else ∅) := hr
    rcases Finset.mem_union.mp hr' with hr2 | hr2
    · exact hA.target_lt q ch r hr2
    · split_ifs at hr2 with hint
      · exact hA.starting_lt r hr2
      · exact absurd hr2 (Finset.not_mem_empty r)

/-- C5: every automaton produced by the combinators (`empty`, `unit`,
`plus`, `times`, `star`) satisfies the bounds invariant: every id in its
starting set, accepting set, transition keys and transition destinations is
strictly less than its state count. -/
theorem built_wf {A : NFA} (h : Built A) : WF A := by
  induction h with
  | empty => exact wf_empty
  | unit c => exact wf_unit c
  | plus _ _ ihA ihB => exact wf_plus ihA ihB
  | times _ _ ihA ihB => exact wf_times ihA ihB
  | star _ ihA => exact wf_star ihA

theorem built_wf_witness :
    Built (star (times (unit 'a') (unit 'b'))) ∧
      WF (star (times (unit 'a') (unit 'b'))) :=
  ⟨Built.star (Built.times (Built.unit 'a') (Built.unit 'b')),
    built_wf (Built.star (Built.times (Built.unit 'a') (Built.unit 'b')))⟩

/-! Characterization of `star`. -/

theorem StarLang.snoc {L : List Char → Prop} {t w : List Char}
    (ht : StarLang L t) (hw : L w) : StarLang L (t ++ w) := by
  induction ht with
  | nil =>
    rw [List.nil_append]
    have h := StarLang.append w [] hw StarLang.nil
    rwa [List.append_nil] at h
  | append u v hu _ ih =>
    rw [List.append_assoc]
    exact StarLang.append u (v ++ w) hu ih

theorem star_delta_superset (A : NFA) :
    ∀ q ch, A.delta q ch ⊆ (star A).delta q ch := by
  intro q ch
  exact Finset.subset_union_left

theorem star_run_low (A : NFA) (S : Finset ℕ) (s : List Char) :
    runFrom A S s ⊆ runFrom (star A) S s :=
  runFrom_mono (star_delta_superset A) subset_rfl s

theorem star_delta_starting {A : NFA} {p : ℕ} {ch : Char}
    (hne : (A.delta p ch ∩ A.finished).Nonempty) :
    A.starting ⊆ (star A).delta p ch := by
  intro x hx
  refine Finset.mem_union_right _ ?_
  rw [if_pos hne]
  exact hx

theorem star_restart {A : NFA} {u : List Char} (hm : is_match A u = true) :
    A.starting ⊆ runFrom (star A) A.starting u := by
  rcases List.eq_nil_or_concat u with rfl | ⟨u', c, rfl⟩
  · rw [runFrom_nil]
  · rcases is_match_iff.mp hm with ⟨f, hf, hff⟩
    rw [List.concat_eq_append, runFrom_concat] at hf
    rcases mem_stepSet.mp hf with ⟨p, hp, hfd⟩
    rw [List.concat_eq_append, runFrom_concat]
    intro x hx
    exact mem_stepSet.mpr ⟨p, star_run_low A A.starting u' hp,
      star_delta_starting ⟨f, Finset.mem_inter.mpr ⟨hfd, hff⟩⟩ hx⟩

theorem star_sl_start {A : NFA} {s1 : List Char}
    (hsl : StarLang (fun u => is_match A u = true) s1) :
    A.starting ⊆ runFrom (star A) A.starting s1 := by
  induction hsl with
  | nil => rw [runFrom_nil]
  | append u v hu _ ih =>
    rw [runFrom_append]
    calc A.starting ⊆ runFrom (star A) A.starting v := ih
      _ ⊆ runFrom (star A) (runFrom (star A) A.starting u) v :=
          runFrom_mono (fun _ _ => subset_rfl) (star_restart hu) v

theorem star_run_complete {A : NFA} {s1 s2 : List Char} {q : ℕ}
    (hsl : StarLang (fun u => is_match A u = true) s1)
    (hq : q ∈ runFrom A A.starting s2) :
    q ∈ runFrom (star A) A.starting (s1 ++ s2) := by
  rw [runFrom_append]
  refine runFrom_mono (fun _ _ => subset_rfl) (star_sl_start hsl) s2 ?_
  exact star_run_low A A.starting s2 hq

theorem star_run_sub {A : NFA} :
    ∀ s, ∀ q ∈ runFrom (star A) A.starting s,
      ∃ s1 s2, s = s1 ++ s2 ∧ StarLang (fun u => is_match A u = true) s1 ∧
        q ∈ runFrom A A.starting s2 := by
  intro s
  induction s using List.reverseRecOn with
  | nil =>
    intro q hq
    rw [runFrom_nil] at hq
    exact ⟨[], [], rfl, StarLang.nil, by rw [runFrom_nil]; exact hq⟩
  | append_singleton s c ih =>
    intro q hq
    rw [runFrom_concat] at hq
    rcases mem_stepSet.mp hq with ⟨p, hp, hqd⟩
    rcases ih p hp with ⟨s1, s2, rfl, hsl, hpA⟩
    have hq2 : q ∈ A.delta p c ∪
        (if (A.delta p c ∩ A.finished).Nonempty then A.starting else ∅) := hqd
    rcases Finset.mem_union.mp hq2 with hq | hq
    · refine ⟨s1, s2 ++ [c], List.append_assoc s1 s2 [c], hsl, ?_⟩
      rw [runFrom_concat]
      exact mem_stepSet.mpr ⟨p, hpA, hq⟩
    · by_cases hne : (A.delta p c ∩ A.finished).Nonempty
      · rw [if_pos hne] at hq
        rcases hne with ⟨f, hf⟩
        rcases Finset.mem_inter.mp hf with ⟨hf1, hf2⟩
        have hm : is_match A (s2 ++ [c]) = true := by
          refine is_match_iff.mpr ⟨f, ?_, hf2⟩
          rw [runFrom_concat]
          exact mem_stepSet.mpr ⟨p, hpA, hf1⟩
        refine ⟨s1 ++ (s2 ++ [c]), [], ?_, StarLang.snoc hsl hm, ?_⟩
        · rw [List.append_nil, List.append_assoc]
        · rw [runFrom_nil]
          exact hq
      · rw [if_neg hne] at hq
        exact absurd hq (Finset.not_mem_empty q)

/-- C3 (amended): for every automaton A whose starting set is nonempty and
none of whose transitions targets a starting state, `star A` accepts a
sequence s iff s can be partitioned into zero or more consecutive substrings
each accepted by A.  (Without these side conditions the claim is false, see
the counterexample; `star` makes every starting state accepting, so a word
of A that merely reaches a starting state would be accepted, and an
automaton with no starting state rejects the empty sequence.) -/
theorem star_accepts_iff_starLang (A : NFA)
    (h1 : ∀ q ch, A.delta q ch ∩ A.starting = ∅)
    (h2 : A.starting.Nonempty) (s : List Char) :
    is_match (star A) s = true ↔
      StarLang (fun u => is_match A u = true) s := by
  constructor
  · intro hm
    rcases is_match_iff.mp hm with ⟨q, hq, hqf⟩
    rcases star_run_sub s q hq with ⟨s1, s2, rfl, hsl, hqA⟩
    rcases Finset.mem_union.mp hqf with hqf | hqf
    · exact StarLang.snoc hsl (is_match_iff.mpr ⟨q, hqA, hqf⟩)
    · have hs2 : s2 = [] := by
        rcases List.eq_nil_or_concat s2 with rfl | ⟨s2', c, rfl⟩
        · rfl
        · exfalso
          rw [List.concat_eq_append, runFrom_concat] at hqA
          rcases mem_stepSet.mp hqA with ⟨p, -, hqd⟩
          have : q ∈ A.delta p c ∩ A.starting := Finset.mem_inter.mpr ⟨hqd, hqf⟩
          rw [h1 p c] at this
          exact Finset.not_mem_empty q this
      subst hs2
      rw [List.append_nil]
      exact hsl
  · intro hsl
    rcases h2 with ⟨q0, hq0⟩
    have hrun : q0 ∈ runFrom (star A) A.starting s := by
      have := @star_run_complete A s [] q0 hsl (by rw [runFrom_nil]; exact hq0)
      rwa [List.append_nil] at this
    exact is_match_iff.mpr ⟨q0, hrun, Finset.mem_union_right _ hq0⟩

theorem star_accepts_iff_starLang_witness :
    (∀ q ch, (unit 'a').delta q ch ∩ (unit 'a').starting = ∅) ∧
      (unit 'a').starting.Nonempty ∧
      (is_match (star (unit 'a')) ['a', 'a'] = true ↔
        StarLang (fun u => is_match (unit 'a') u = true) ['a', 'a']) := by
  have h1 : ∀ q ch, (unit 'a').delta q ch ∩ (unit 'a').starting = ∅ := by
    intro q ch
    simp only [unit]
    split_ifs
    · decide
    · decide
  exact ⟨h1, by decide,
    star_accepts_iff_starLang (unit 'a') h1 (by decide) ['a', 'a']⟩

/-- A combinator-built automaton refuting the unrestricted claim about
`star`: `aStarB` accepts exactly the words of the language a*b, and — via
the `times` augmentation — has transitions back into its own starting set,
which `star` turns into accepting states. -/
def aStarB : NFA := times (star (unit 'a')) (unit 'b')

theorem aStarB_delta_three (p : ℕ) (c : Char)
    (h : 3 ∈ aStarB.delta p c) : c = 'b' := by
  by_contra hc
  have hub : ∀ m, (unit 'b').delta m c = ∅ := by
    intro m
    simp only [unit]
    rw [if_neg]
    rintro ⟨-, h2⟩
    exact hc h2
  have hua : ∀ m, (unit 'a').delta m c ⊆ {1} := by
    intro m
    simp only [unit]
    split_ifs
    · exact subset_rfl
    · exact Finset.empty_subset _
  have hFa : (star (unit 'a')).delta p c ⊆ {0, 1} := by
    intro x hx
    have hx2 : x ∈ (unit 'a').delta p c ∪
        (if ((unit 'a').delta p c ∩ (unit 'a').finished).Nonempty then
          (unit 'a').starting
        else ∅) := hx
    rcases Finset.mem_union.mp hx2 with hx3 | hx3
    · have hx1 : x = 1 := by simpa using hua p hx3
      simp [hx1]
    · split_ifs at hx3 with h2
      · have hx0 : x = 0 := by simpa [unit] using hx3
        simp [hx0]
      · exact absurd hx3 (Finset.not_mem_empty x)
  have hd2 : aStarB.delta p c ⊆ {0, 1, 2} := by
    intro x hx
    have hx2 : x ∈
        if (star (unit 'a')).states ≤ p ∧
            ((unit 'b').delta (p - (star (unit 'a')).states) c).Nonempty then
          ((unit 'b').delta (p - (star (unit 'a')).states) c).image
            (· + (star (unit 'a')).states)
        else
          (star (unit 'a')).delta p c ∪
            (if ((star (unit 'a')).delta p c ∩ (star (unit 'a')).finished).Nonempty then
              (unit 'b').starting.image (· + (star (unit 'a')).states)
            else ∅) := hx
    rw [hub] at hx2
    rw [if_neg (by simp)] at hx2
    rcases Finset.mem_union.mp hx2 with hx3 | hx3
    · have := hFa hx3
      simp only [Finset.mem_insert, Finset.mem_singleton] at this ⊢
      tauto
    · split_ifs at hx3 with h2
      · rcases Finset.mem_image.mp hx3 with ⟨t, ht, h3⟩
        have ht0 : t = 0 := by simpa [unit] using ht
        subst ht0
        have hst : (star (unit 'a')).states = 2 := rfl
        rw [hst] at h3
        simp only [Finset.mem_insert, Finset.mem_singleton]
        omega
      · exact absurd hx3 (Finset.not_mem_empty x)
  have h3 := hd2 h
  simp at h3

theorem aStarB_ends_b (u : List Char) (hm : is_match aStarB u = true) :
    ∃ u', u = u' ++ ['b'] := by
  rcases List.eq_nil_or_concat u with rfl | ⟨u', c, rfl⟩
  · exact absurd hm (by decide)
  · rcases is_match_iff.mp hm with ⟨q, hq, hqf⟩
    have hq3 : q = 3 := by
      simpa [aStarB, times, unit] using hqf
    subst hq3
    rw [List.concat_eq_append, runFrom_concat] at hq
    rcases mem_stepSet.mp hq with ⟨p, -, hd⟩
    exact ⟨u', by rw [List.concat_eq_append, aStarB_delta_three p c hd]⟩

theorem starLang_ends {L : List Char → Prop} {c : Char}
    (hL : ∀ u, L u → ∃ u', u = u' ++ [c]) :
    ∀ s, StarLang L s → s = [] ∨ ∃ s', s = s' ++ [c] := by
  intro s hsl
  induction hsl with
  | nil => exact Or.inl rfl
  | append u v hu _ ih =>
    rcases ih with rfl | ⟨v', rfl⟩
    · rcases hL u hu with ⟨u', rfl⟩
      exact Or.inr ⟨u', by rw [List.append_nil]⟩
    · exact Or.inr ⟨u ++ v', by rw [List.append_assoc]⟩

/-- C3 counterexample: for the combinator-built automaton
`aStarB = times (star (unit 'a')) (unit 'b')` (language a*b), `star aStarB`
accepts the one-symbol sequence "a", yet "a" cannot be partitioned into
substrings each accepted by `aStarB` — every accepted word ends in the
symbol b.  So the claim as stated, quantified over every automaton, is
false, and the failure is reachable through the public combinators. -/
theorem star_claim_counterexample :
    is_match (star aStarB) ['a'] = true ∧
      ¬ StarLang (fun u => is_match aStarB u = true) ['a'] := by
  constructor
  · decide
  · intro hsl
    rcases starLang_ends aStarB_ends_b ['a'] hsl with h | ⟨s', hs'⟩
    · simp at h
    · rcases s' with _ | ⟨x, s2⟩
      · injection hs' with h1 h2
        exact absurd h1 (by decide)
      · injection hs' with h1 h2
        exact absurd h2.symm (by simp)

end Reg
